import Mathlib

/-!
Verification of the core of `rudua` (src/utility.rs): the size-annotated
filesystem tree (`Node`), its operations (`mark`, `find_node`,
`find_node_mut`, `delete_marked`) and the recursive indexer `inspect_dir`.

Modelling conventions:
* A filesystem path is a list of components (`Path := List String`); the
  leading `/` of an absolute path is implicit.  Rust's `Path::starts_with`
  is component-wise prefix, modelled by `List.isPrefixOf`.
* `u64` arithmetic (`FileSize`) is `Nat` taken modulo `2 ^ 64`; additions
  wrap (`wadd`), matching release-mode Rust.
* The filesystem seen by `inspect_dir` is a value of the inductive `FSEntry`:
  it records, for each path, the outcome of the `metadata` call and (for
  directories) the outcome of `read_dir` including per-item iterator errors.
* The four callbacks of `Callbacks` cannot influence control flow, so they
  are modelled as an event trace (`HookEvent`) returned next to the result.
* Filesystem effects of `delete_marked` are modelled as a trace of removal
  operations (`FsOp`), with oracles for `Path::is_dir` answers and for the
  success of each removal.
-/

/-- Filesystem paths as component lists (absolute, root implicit). -/
abbrev FPath := List String

/-- Wrap-around bound of `u64`, the representation of `FileSize`. -/
def W64 : Nat := 2 ^ 64

/-- Wrapping `u64` addition (`FileSize::add_assign`). -/
def wadd (a b : Nat) : Nat := (a + b) % W64

/-- String comparison, modelling the byte-lexicographic `Ord` of `OsStr`. -/
def strCmp (a b : String) : Ordering :=
  if a < b then .lt else if b < a then .gt else .eq

/-- Component-wise lexicographic path comparison, modelling `PathBuf::cmp`. -/
def pathCmp : FPath → FPath → Ordering
  | [], [] => .eq
  | [], _ :: _ => .lt
  | _ :: _, [] => .gt
  | a :: as', b :: bs' =>
    match strCmp a b with
    | .eq => pathCmp as' bs'
    | o => o

/-- The in-memory tree node (`struct Node` of utility.rs). -/
inductive Node where
  | mk (size : Nat) (name : FPath) (children : List Node)
       (is_directory : Bool) (is_marked : Bool)

def Node.size : Node → Nat
  | .mk s _ _ _ _ => s

def Node.name : Node → FPath
  | .mk _ n _ _ _ => n

def Node.children : Node → List Node
  | .mk _ _ c _ _ => c

def Node.is_directory : Node → Bool
  | .mk _ _ _ d _ => d

def Node.is_marked : Node → Bool
  | .mk _ _ _ _ m => m

/-- Constructor `Node::new`: empty children, unmarked; the `u64` size. -/
def Node.new (size : Nat) (name : FPath) (is_directory : Bool) : Node :=
  .mk (size % W64) name [] is_directory false

mutual

/-- All nodes of the subtree rooted at a node (the node itself included). -/
def treeNodes : Node → List Node
  | .mk s n cs d m => .mk s n cs d m :: treeNodesList cs

def treeNodesList : List Node → List Node
  | [] => []
  | c :: cs => treeNodes c ++ treeNodesList cs

end

mutual

/-- Method `Node::mark`: set `is_marked` on the node and recurse into all
children. -/
def mark (v : Bool) : Node → Node
  | .mk s n cs d _ => .mk s n (markList v cs) d v

def markList (v : Bool) : List Node → List Node
  | [] => []
  | c :: cs => mark v c :: markList v cs

end

mutual

/-- Method `Node::find_node`: return the node itself when its path equals the
argument, otherwise scan children in order. -/
def find_node (n : Node) (p : FPath) : Option Node :=
  match n with
  | .mk s nm cs d m =>
    if nm = p then some (.mk s nm cs d m) else findChild cs p

/-- The child loop of `find_node`: a child whose path equals the argument is
returned; the first child whose path is a prefix of the argument is descended
into, its answer returned unconditionally. -/
def findChild : List Node → FPath → Option Node
  | [], _ => none
  | c :: cs, p =>
    if c.name = p then some c
    else if c.name.isPrefixOf p then find_node c p
    else findChild cs p

end

mutual

/-- Method `Node::find_node_mut`: identical traversal to `find_node`, giving
mutable access in Rust. -/
def find_node_mut (n : Node) (p : FPath) : Option Node :=
  match n with
  | .mk s nm cs d m =>
    if nm = p then some (.mk s nm cs d m) else findChildMut cs p

def findChildMut : List Node → FPath → Option Node
  | [], _ => none
  | c :: cs, p =>
    if c.name = p then some c
    else if c.name.isPrefixOf p then find_node_mut c p
    else findChildMut cs p

end

/-- Whether `child` is a direct filesystem child of `parent` (one extra
component). -/
def childLinkb (parent child : FPath) : Bool :=
  parent.isPrefixOf child && (child.length == parent.length + 1)

/-- Whether the names of the listed nodes are pairwise distinct. -/
def distinctNames : List Node → Bool
  | [] => true
  | c :: cs => !(cs.any fun d => d.name == c.name) && distinctNames cs

mutual

/-- The tree invariant of the spec: every child's path is a direct extension
of its parent's path, sibling paths are distinct, recursively. -/
def treeInvb : Node → Bool
  | .mk _ nm cs _ _ => distinctNames cs && treeInvChildren nm cs

def treeInvChildren (parent : FPath) : List Node → Bool
  | [] => true
  | c :: cs => childLinkb parent c.name && treeInvb c && treeInvChildren parent cs

end

/-- A filesystem removal operation issued by `delete_marked`. -/
inductive FsOp where
  | removeDirAll (p : FPath)
  | removeFile (p : FPath)
deriving Repr, DecidableEq

/-- The path a removal operation acts on. -/
def FsOp.path : FsOp → FPath
  | .removeDirAll p => p
  | .removeFile p => p

mutual

/-- Method `Node::delete_marked` (which takes `&self`): for each child, when
marked issue one removal (`remove_dir_all` when the live filesystem says the
path is a directory, else `remove_file`), otherwise recurse.  `isDir` models
the live `Path::is_dir` answers; `outcome` models success of each removal
(a failure is only printed, so it is recorded and the loop continues).  The
returned node is the tree as left by the call. -/
def delete_marked (isDir : FPath → Bool) (outcome : FsOp → Bool) :
    Node → Node × List (FsOp × Bool)
  | .mk s nm cs d m =>
    let r := deleteMarkedList isDir outcome cs
    (.mk s nm r.1 d m, r.2)

def deleteMarkedList (isDir : FPath → Bool) (outcome : FsOp → Bool) :
    List Node → List Node × List (FsOp × Bool)
  | [] => ([], [])
  | c :: cs =>
    let rest := deleteMarkedList isDir outcome cs
    if c.is_marked then
      let op := if isDir c.name then FsOp.removeDirAll c.name
                else FsOp.removeFile c.name
      (c :: rest.1, (op, outcome op) :: rest.2)
    else
      let r := delete_marked isDir outcome c
      (r.1 :: rest.1, r.2 ++ rest.2)

end

mutual

/-- Modelled from the spec (§4.2 `delete_marked`): the nodes the spec says are
removed, namely each marked child met on a descent that recurses only into
unmarked nodes. -/
def markedSpine : Node → List Node
  | .mk _ _ cs _ _ => markedSpineList cs

def markedSpineList : List Node → List Node
  | [] => []
  | c :: cs =>
    (if c.is_marked then [c] else markedSpine c) ++ markedSpineList cs

end

/-- The fixed skip-list `SPECIAL_PATHS` of `inspect_dir`. -/
def specialPaths : List FPath := [["dev"], ["proc"], ["mnt"]]

/-- Whether a path starts with one of the special prefixes. -/
def isSpecial (p : FPath) : Bool := specialPaths.any fun s => s.isPrefixOf p

mutual

/-- The filesystem as observed by `inspect_dir` at one path: the outcome of
the `metadata` call (`metaErr` when it fails; otherwise length and kind), and
for directories the outcome of `read_dir` (`dirErr` when listing fails). -/
inductive FSEntry where
  | metaErr (err : Nat)
  | file (len : Nat)
  | other (len : Nat)
  | dirErr (len : Nat) (err : Nat)
  | dir (len : Nat) (items : List FSItem)

/-- One item yielded by the `read_dir` iterator: an `Err` item, or a named
entry together with the filesystem below it. -/
inductive FSItem where
  | entryErr (err : Nat)
  | entry (name : String) (sub : FSEntry)

end

/-- The error `read_dir` raises on a non-directory path. -/
def notADirErr : Nat := 20

/-- One invocation of a `Callbacks` hook, in invocation order. -/
inductive HookEvent where
  | failedMeta (err : Nat) (p : FPath)
  | failedEntry (err : Nat) (p : FPath)
  | failedInspection (err : Nat) (p : FPath)
  | indexedBytes (n : Nat)
deriving Repr, DecidableEq

/-- Accumulator of the entry loop of `inspect_dir`: the running `node.size`,
the children pushed so far, and the hook events fired so far. -/
structure PRes where
  size : Nat
  children : List Node
  trace : List HookEvent

/-- The comparator passed to `sort_by` in `inspect_dir`. -/
def cmpNode (a b : Node) : Ordering :=
  if a.is_directory && b.is_directory then pathCmp a.name b.name
  else if a.is_directory then .lt
  else if b.is_directory then .gt
  else pathCmp a.name b.name

/-- The order `sort_by` establishes: earlier elements never compare
`Greater` to later ones. -/
def nodeLe (a b : Node) : Prop := cmpNode a b ≠ .gt

instance : DecidableRel nodeLe := fun a b => by
  unfold nodeLe; infer_instance

/-- The `children.sort_by(...)` call of `inspect_dir`. -/
def sortChildren (cs : List Node) : List Node := List.insertionSort nodeLe cs

mutual

/-- Function `inspect_dir` of utility.rs over the modelled filesystem.  The
second component is the trace of hook invocations. -/
def inspectDir (p : FPath) (e : FSEntry) : Except Nat Node × List HookEvent :=
  if isSpecial p then (.ok (Node.new 0 p true), [])
  else
    match e with
    | .metaErr err => (.error err, [])
    | .file _ => (.error notADirErr, [])
    | .other _ => (.error notADirErr, [])
    | .dirErr _ err => (.error err, [])
    | .dir len items =>
      let r := processItems p (len % W64) items
      (.ok (.mk r.size p (sortChildren r.children) true false), r.trace)

/-- The `for entry in read_dir(path)?` loop of `inspect_dir`, threading the
running size. -/
def processItems (p : FPath) (acc : Nat) : List FSItem → PRes
  | [] => ⟨acc, [], []⟩
  | .entryErr err :: rest =>
    let r := processItems p acc rest
    ⟨r.size, r.children, .failedEntry err p :: r.trace⟩
  | .entry name sub :: rest =>
    match sub with
    | .metaErr err =>
      let r := processItems p acc rest
      ⟨r.size, r.children, .failedMeta err (p ++ [name]) :: r.trace⟩
    | .file l =>
      let r := processItems p (wadd acc l) rest
      ⟨r.size, Node.new l (p ++ [name]) false :: r.children, r.trace⟩
    | .other _ => processItems p acc rest
    | .dirErr dl derr =>
      let rec' := inspectDir (p ++ [name]) (.dirErr dl derr)
      match rec'.1 with
      | .ok child =>
        let r := processItems p (wadd acc child.size) rest
        ⟨r.size, child :: r.children,
          rec'.2 ++ .indexedBytes child.size :: r.trace⟩
      | .error err =>
        let r := processItems p acc rest
        ⟨r.size, r.children,
          rec'.2 ++ .failedInspection err (p ++ [name]) :: r.trace⟩
    | .dir dl ditems =>
      let rec' := inspectDir (p ++ [name]) (.dir dl ditems)
      match rec'.1 with
      | .ok child =>
        let r := processItems p (wadd acc child.size) rest
        ⟨r.size, child :: r.children,
          rec'.2 ++ .indexedBytes child.size :: r.trace⟩
      | .error err =>
        let r := processItems p acc rest
        ⟨r.size, r.children,
          rec'.2 ++ .failedInspection err (p ++ [name]) :: r.trace⟩

end

@[simp] theorem Node.size_mk (s n c d m) : (Node.mk s n c d m).size = s := rfl

@[simp] theorem Node.name_mk (s n c d m) : (Node.mk s n c d m).name = n := rfl

@[simp] theorem Node.children_mk (s n c d m) : (Node.mk s n c d m).children = c := rfl

@[simp] theorem Node.is_directory_mk (s n c d m) :
    (Node.mk s n c d m).is_directory = d := rfl

@[simp] theorem Node.is_marked_mk (s n c d m) : (Node.mk s n c d m).is_marked = m := rfl

mutual

/-- Strong induction over `Node`, recursing through the children list. -/
theorem nodeInduct {P : Node → Prop}
    (h : ∀ s nm cs d m, (∀ c ∈ cs, P c) → P (.mk s nm cs d m)) :
    ∀ n, P n
  | .mk s nm cs d m => h s nm cs d m (fun c hc => nodeInductList h cs c hc)

theorem nodeInductList {P : Node → Prop}
    (h : ∀ s nm cs d m, (∀ c ∈ cs, P c) → P (.mk s nm cs d m)) :
    ∀ (cs : List Node), ∀ c ∈ cs, P c
  | [] => by simp
  | c :: cs => by
    intro x hx
    rcases List.mem_cons.mp hx with rfl | hx
    · exact nodeInduct h x
    · exact nodeInductList h cs x hx

end

mutual

/-- Strong induction over the modelled filesystem, recursing through the
entries of a directory listing. -/
theorem fsInduct {P : FSEntry → Prop}
    (hm : ∀ e, P (.metaErr e)) (hf : ∀ l, P (.file l)) (ho : ∀ l, P (.other l))
    (hde : ∀ l e, P (.dirErr l e))
    (hd : ∀ l items, (∀ nm sub, FSItem.entry nm sub ∈ items → P sub) →
        P (.dir l items)) :
    ∀ e, P e
  | .metaErr e => hm e
  | .file l => hf l
  | .other l => ho l
  | .dirErr l e => hde l e
  | .dir l items => hd l items (fun nm sub hs =>
      fsInductItems hm hf ho hde hd items nm sub hs)

theorem fsInductItems {P : FSEntry → Prop}
    (hm : ∀ e, P (.metaErr e)) (hf : ∀ l, P (.file l)) (ho : ∀ l, P (.other l))
    (hde : ∀ l e, P (.dirErr l e))
    (hd : ∀ l items, (∀ nm sub, FSItem.entry nm sub ∈ items → P sub) →
        P (.dir l items)) :
    ∀ (its : List FSItem), ∀ nm sub, FSItem.entry nm sub ∈ its → P sub
  | [] => by simp
  | it :: its => by
    intro nm sub hs
    rcases List.mem_cons.mp hs with h | h
    · cases h
      exact fsInduct hm hf ho hde hd sub
    · exact fsInductItems hm hf ho hde hd its nm sub h

end

@[simp] theorem treeNodes_mk (s nm cs d m) :
    treeNodes (.mk s nm cs d m) = .mk s nm cs d m :: treeNodesList cs := by
  simp [treeNodes]

@[simp] theorem treeNodesList_nil : treeNodesList [] = [] := by simp [treeNodesList]

@[simp] theorem treeNodesList_cons (c cs) :
    treeNodesList (c :: cs) = treeNodes c ++ treeNodesList cs := by
  simp [treeNodesList]

theorem self_mem_treeNodes (n : Node) : n ∈ treeNodes n := by
  cases n; simp

theorem mem_treeNodesList {m : Node} {cs : List Node} :
    m ∈ treeNodesList cs ↔ ∃ c ∈ cs, m ∈ treeNodes c := by
  induction cs with
  | nil => simp
  | cons c cs ih => simp [ih]

theorem mem_treeNodes_iff {m n : Node} :
    m ∈ treeNodes n ↔ m = n ∨ ∃ c ∈ n.children, m ∈ treeNodes c := by
  cases n
  simp [mem_treeNodesList]

theorem markList_eq_map (v : Bool) (cs : List Node) :
    markList v cs = cs.map (mark v) := by
  induction cs with
  | nil => simp [markList]
  | cons c cs ih => simp [markList, ih]

/-- C5: after `mark(n, v)`, the `is_marked` flag of `n` and of every
descendant of `n` equals `v`, regardless of the prior per-node markings. -/
theorem c5_mark_sets_subtree (v : Bool) (n : Node) :
    ∀ m ∈ treeNodes (mark v n), m.is_marked = v := by
  induction n using nodeInduct with
  | h s nm cs d mk0 ih =>
    intro m hm
    simp [mark, markList_eq_map] at hm
    rcases hm with rfl | hm
    · simp
    · rcases mem_treeNodesList.mp hm with ⟨c', hc', hmc⟩
      rcases List.mem_map.mp hc' with ⟨c, hc, rfl⟩
      exact ih c hc m hmc

theorem c5_mark_sets_subtree_witness :
    (Node.mk 2 ["r", "a"] [] false true).is_marked = true :=
  c5_mark_sets_subtree true
    (.mk 1 ["r"] [.mk 2 ["r", "a"] [] false false] true false)
    (.mk 2 ["r", "a"] [] false true)
    (by simp [mark, markList, treeNodes, treeNodesList])

theorem deleteMarkedList_fst (isDir : FPath → Bool) (outcome : FsOp → Bool)
    (cs : List Node) (h : ∀ c ∈ cs, (delete_marked isDir outcome c).1 = c) :
    (deleteMarkedList isDir outcome cs).1 = cs := by
  induction cs with
  | nil => simp [deleteMarkedList]
  | cons c cs ih =>
    have hc := h c (by simp)
    have hrest := ih (fun c' hc' => h c' (by simp [hc']))
    by_cases hm : c.is_marked = true
    · simp [deleteMarkedList, hm, hrest]
    · simp [deleteMarkedList, hm, hrest, hc]

/-- C8: `delete_marked` never mutates the in-memory tree: every field of
every node is exactly as it was before the call, whatever the live
filesystem (`isDir`) answers and whatever removals fail (`outcome`). -/
theorem c8_delete_marked_frame (isDir : FPath → Bool) (outcome : FsOp → Bool) :
    ∀ n, (delete_marked isDir outcome n).1 = n := by
  intro n
  induction n using nodeInduct with
  | h s nm cs d m ih =>
    simp [delete_marked, deleteMarkedList_fst isDir outcome cs ih]

/-- C9: for a path starting with one of the special prefixes, `inspect_dir`
returns an empty, size-0 directory node and performs no filesystem access at
all: the result is the same whatever the filesystem `e` holds there, and no
hook fires. -/
theorem c9_special_paths (p : FPath) (h : isSpecial p = true) (e : FSEntry) :
    inspectDir p e = (.ok (.mk 0 p [] true false), []) := by
  rw [inspectDir.eq_def]
  simp [h, Node.new]

theorem c9_special_paths_witness :
    inspectDir ["proc", "self"] (.file 5)
      = (.ok (.mk 0 ["proc", "self"] [] true false), []) :=
  c9_special_paths ["proc", "self"] (by decide) (.file 5)

/-- The removal issued for one marked child: `remove_dir_all` when the live
filesystem calls the path a directory, else `remove_file`. -/
def opOf (isDir : FPath → Bool) (c : Node) : FsOp :=
  if isDir c.name then .removeDirAll c.name else .removeFile c.name

theorem opOf_path (isDir : FPath → Bool) (c : Node) :
    (opOf isDir c).path = c.name := by
  unfold opOf
  split <;> rfl

@[simp] theorem markedSpine_mk (s nm cs d m) :
    markedSpine (.mk s nm cs d m) = markedSpineList cs := by
  simp [markedSpine]

@[simp] theorem markedSpineList_nil : markedSpineList [] = [] := by
  simp [markedSpineList]

@[simp] theorem markedSpineList_cons (c cs) :
    markedSpineList (c :: cs)
      = (if c.is_marked then [c] else markedSpine c) ++ markedSpineList cs := by
  simp [markedSpineList]

theorem deleteMarkedList_ops (isDir : FPath → Bool) (outcome : FsOp → Bool)
    (cs : List Node)
    (h : ∀ c ∈ cs, (delete_marked isDir outcome c).2.map Prod.fst
        = (markedSpine c).map (opOf isDir)) :
    (deleteMarkedList isDir outcome cs).2.map Prod.fst
      = (markedSpineList cs).map (opOf isDir) := by
  induction cs with
  | nil => simp [deleteMarkedList]
  | cons c cs ih =>
    have hc := h c (by simp)
    have hrest := ih (fun c' hc' => h c' (by simp [hc']))
    by_cases hm : c.is_marked = true
    · simp [deleteMarkedList, hm, hrest, opOf]
    · simp [deleteMarkedList, hm, hrest, hc]

/-- The operations issued by `delete_marked` are exactly, in order, one
removal per spec-identified marked node. -/
theorem delete_marked_ops (isDir : FPath → Bool) (outcome : FsOp → Bool) :
    ∀ n, (delete_marked isDir outcome n).2.map Prod.fst
      = (markedSpine n).map (opOf isDir) := by
  intro n
  induction n using nodeInduct with
  | h s nm cs d m ih =>
    simp [delete_marked]
    exact deleteMarkedList_ops isDir outcome cs ih

theorem markedSpineList_subset (cs : List Node)
    (h : ∀ c ∈ cs, ∀ x ∈ markedSpine c,
        x.is_marked = true ∧ x ∈ treeNodesList c.children) :
    ∀ x ∈ markedSpineList cs, x.is_marked = true ∧ x ∈ treeNodesList cs := by
  induction cs with
  | nil => simp
  | cons c cs ih =>
    intro x hx
    simp only [markedSpineList_cons, List.mem_append] at hx
    rcases hx with hx | hx
    · by_cases hm : c.is_marked = true
      · simp [hm] at hx
        subst hx
        constructor
        · exact hm
        · simp [self_mem_treeNodes]
      · simp [hm] at hx
        rcases h c (by simp) x hx with ⟨h1, h2⟩
        refine ⟨h1, ?_⟩
        have : x ∈ treeNodes c := by
          cases c
          simp at h2 ⊢
          tauto
        simp [this]
    · rcases ih (fun c' hc' => h c' (by simp [hc'])) x hx with ⟨h1, h2⟩
      simp [h1, h2]

/-- Every spec-identified marked node is marked and a strict descendant. -/
theorem markedSpine_subset (n : Node) :
    ∀ x ∈ markedSpine n, x.is_marked = true ∧ x ∈ treeNodesList n.children := by
  induction n using nodeInduct with
  | h s nm cs d m ih =>
    intro x hx
    simp only [markedSpine_mk] at hx
    have := markedSpineList_subset cs (fun c hc => ih c hc) x hx
    simpa using this

/-- C7: `delete_marked` issues removals for exactly the marked entries met on
the unmarked descent (a marked child removed by `remove_dir_all` when the
filesystem says it is a directory, by `remove_file` otherwise; unmarked
children only recursed into), in sibling order, and the issued operations do
not depend on `outcome`, so one failed removal never prevents another. -/
theorem c7_delete_marked_exact (isDir : FPath → Bool) (outcome : FsOp → Bool)
    (n : Node) :
    (delete_marked isDir outcome n).2.map Prod.fst
        = (markedSpine n).map (opOf isDir)
    ∧ ∀ x ∈ markedSpine n, x.is_marked = true ∧ x ∈ treeNodesList n.children :=
  ⟨delete_marked_ops isDir outcome n, markedSpine_subset n⟩

theorem c7_delete_marked_exact_witness :
    (delete_marked (fun q => q == ["r", "a"]) (fun _ => false)
        (.mk 10 ["r"]
          [.mk 3 ["r", "a"] [] false true,
           .mk 7 ["r", "b"] [.mk 7 ["r", "b", "c"] [] false true] true false]
          true false)).2.map Prod.fst
      = [.removeDirAll ["r", "a"], .removeFile ["r", "b", "c"]] :=
  ((c7_delete_marked_exact (fun q => q == ["r", "a"]) (fun _ => false)
      (.mk 10 ["r"]
        [.mk 3 ["r", "a"] [] false true,
         .mk 7 ["r", "b"] [.mk 7 ["r", "b", "c"] [] false true] true false]
        true false)).1).trans rfl

theorem treeInvb_mk {s nm cs d m} :
    treeInvb (.mk s nm cs d m) = true
      ↔ distinctNames cs = true ∧ treeInvChildren nm cs = true := by
  simp [treeInvb, Bool.and_eq_true]

theorem treeInvChildren_mem {par : FPath} {cs : List Node} {c : Node}
    (h : treeInvChildren par cs = true) (hc : c ∈ cs) :
    childLinkb par c.name = true ∧ treeInvb c = true := by
  induction cs with
  | nil => simp at hc
  | cons c' cs ih =>
    simp [treeInvChildren, Bool.and_eq_true] at h
    rcases List.mem_cons.mp hc with rfl | hc
    · exact ⟨h.1.1, h.1.2⟩
    · exact ih h.2 hc

theorem childLinkb_length {par ch : FPath} (h : childLinkb par ch = true) :
    ch.length = par.length + 1 := by
  simp [childLinkb, Bool.and_eq_true] at h
  exact h.2

theorem treeInv_desc_length {n : Node} (hinv : treeInvb n = true) :
    ∀ m ∈ treeNodes n, n.name.length ≤ m.name.length := by
  induction n using nodeInduct with
  | h s nm cs d mk0 ih =>
    intro m hm
    simp at hm
    rcases hm with rfl | hm
    · simp
    · rcases mem_treeNodesList.mp hm with ⟨c, hc, hmc⟩
      rcases treeInvChildren_mem (treeInvb_mk.mp hinv).2 hc with ⟨hl, hic⟩
      have h1 := childLinkb_length hl
      have h2 := ih c hc hic m hmc
      simp only [Node.name_mk]
      omega

theorem treeInv_strict_desc_length {s nm cs d mk0}
    (hinv : treeInvb (.mk s nm cs d mk0) = true) :
    ∀ m ∈ treeNodesList cs, nm.length < m.name.length := by
  intro m hm
  rcases mem_treeNodesList.mp hm with ⟨c, hc, hmc⟩
  rcases treeInvChildren_mem (treeInvb_mk.mp hinv).2 hc with ⟨hl, hic⟩
  have h1 := childLinkb_length hl
  have h2 := treeInv_desc_length hic m hmc
  omega

/-- C10: under the tree invariant, every removal issued by `delete_marked`
targets the path of a strict descendant of the node it was invoked on; in
particular the node's own path is never a removal target, marked or not. -/
theorem c10_delete_strict_descendants (isDir : FPath → Bool)
    (outcome : FsOp → Bool) (n : Node) (hinv : treeInvb n = true) :
    ∀ pr ∈ (delete_marked isDir outcome n).2,
      (∃ c ∈ treeNodesList n.children, pr.1.path = c.name)
      ∧ pr.1.path ≠ n.name := by
  intro pr hpr
  have hfst : pr.1 ∈ (delete_marked isDir outcome n).2.map Prod.fst :=
    List.mem_map.mpr ⟨pr, hpr, rfl⟩
  rw [delete_marked_ops] at hfst
  rcases List.mem_map.mp hfst with ⟨c, hc, hop⟩
  rcases markedSpine_subset n c hc with ⟨_, hdesc⟩
  have hpath : pr.1.path = c.name := by rw [← hop, opOf_path]
  refine ⟨⟨c, hdesc, hpath⟩, ?_⟩
  cases n with
  | mk s nm cs d mk0 =>
    have := treeInv_strict_desc_length hinv c (by simpa using hdesc)
    simp only [Node.name_mk]
    intro hcontra
    rw [hpath] at hcontra
    have := congrArg List.length hcontra
    omega

theorem c10_delete_strict_descendants_witness :
    (∃ c ∈ treeNodesList
        [Node.mk 3 ["r", "a"] [] false true],
        (FsOp.removeFile ["r", "a"]).path = c.name)
    ∧ (FsOp.removeFile ["r", "a"]).path ≠ ["r"] :=
  c10_delete_strict_descendants (fun _ => false) (fun _ => true)
    (.mk 10 ["r"] [.mk 3 ["r", "a"] [] false true] true true)
    (by decide)
    (.removeFile ["r", "a"], true)
    (by simp [delete_marked, deleteMarkedList, Node.is_marked, Node.name])

/-- Whether the `metadata` call on the entry succeeds (spec §7 calls the root
unreadable exactly when it does not). -/
def metadataReadable : FSEntry → Bool
  | .metaErr _ => false
  | _ => true

/-- C3 counterexample: a root that is a perfectly readable regular file (its
metadata call succeeds) still makes `inspect_dir` return an error, because
`read_dir` on it fails; so an error result does not imply the root path was
unreadable in the spec's sense. -/
theorem c3_counterexample :
    metadataReadable (.file 10) = true
    ∧ (inspectDir ["a"] (.file 10)).1 = .error notADirErr :=
  ⟨rfl, rfl⟩

/-- C3 amended: `inspect_dir` returns `Ok` exactly when the root path is
special, or the root is a directory whose metadata and entry listing can be
read; it errors in every remaining case (root metadata unreadable, root not a
directory, root listing unobtainable).  Failures below the root never decide
the result: the outcome depends only on this root-level shape, deeper
failures being absorbed and observable only through the hook trace, which
cannot influence the walk. -/
theorem c3_error_only_root_amended (p : FPath) (e : FSEntry) :
    (∃ n, (inspectDir p e).1 = .ok n)
      ↔ (isSpecial p = true ∨ ∃ len items, e = .dir len items) := by
  rw [inspectDir.eq_def]
  by_cases hs : isSpecial p = true
  · simp [hs]
  · simp [hs]
    cases e <;> simp

@[simp] theorem processItems_nil (p : FPath) (acc : Nat) :
    processItems p acc [] = ⟨acc, [], []⟩ := rfl

@[simp] theorem processItems_entryErr (p : FPath) (acc err : Nat)
    (rest : List FSItem) :
    processItems p acc (.entryErr err :: rest)
      = ⟨(processItems p acc rest).size, (processItems p acc rest).children,
         .failedEntry err p :: (processItems p acc rest).trace⟩ := rfl

@[simp] theorem processItems_metaErr (p : FPath) (acc err : Nat) (nm : String)
    (rest : List FSItem) :
    processItems p acc (.entry nm (.metaErr err) :: rest)
      = ⟨(processItems p acc rest).size, (processItems p acc rest).children,
         .failedMeta err (p ++ [nm]) :: (processItems p acc rest).trace⟩ := rfl

@[simp] theorem processItems_file (p : FPath) (acc l : Nat) (nm : String)
    (rest : List FSItem) :
    processItems p acc (.entry nm (.file l) :: rest)
      = ⟨(processItems p (wadd acc l) rest).size,
         Node.new l (p ++ [nm]) false :: (processItems p (wadd acc l) rest).children,
         (processItems p (wadd acc l) rest).trace⟩ := rfl

@[simp] theorem processItems_other (p : FPath) (acc l : Nat) (nm : String)
    (rest : List FSItem) :
    processItems p acc (.entry nm (.other l) :: rest)
      = processItems p acc rest := rfl

theorem processItems_dirErr (p : FPath) (acc dl de : Nat) (nm : String)
    (rest : List FSItem) :
    processItems p acc (.entry nm (.dirErr dl de) :: rest)
      = match (inspectDir (p ++ [nm]) (.dirErr dl de)).1 with
        | .ok child =>
          ⟨(processItems p (wadd acc child.size) rest).size,
           child :: (processItems p (wadd acc child.size) rest).children,
           (inspectDir (p ++ [nm]) (.dirErr dl de)).2
             ++ .indexedBytes child.size
               :: (processItems p (wadd acc child.size) rest).trace⟩
        | .error err =>
          ⟨(processItems p acc rest).size, (processItems p acc rest).children,
           (inspectDir (p ++ [nm]) (.dirErr dl de)).2
             ++ .failedInspection err (p ++ [nm])
               :: (processItems p acc rest).trace⟩ := rfl

theorem processItems_dir (p : FPath) (acc dl : Nat) (nm : String)
    (its rest : List FSItem) :
    processItems p acc (.entry nm (.dir dl its) :: rest)
      = match (inspectDir (p ++ [nm]) (.dir dl its)).1 with
        | .ok child =>
          ⟨(processItems p (wadd acc child.size) rest).size,
           child :: (processItems p (wadd acc child.size) rest).children,
           (inspectDir (p ++ [nm]) (.dir dl its)).2
             ++ .indexedBytes child.size
               :: (processItems p (wadd acc child.size) rest).trace⟩
        | .error err =>
          ⟨(processItems p acc rest).size, (processItems p acc rest).children,
           (inspectDir (p ++ [nm]) (.dir dl its)).2
             ++ .failedInspection err (p ++ [nm])
               :: (processItems p acc rest).trace⟩ := rfl

theorem inspectDir_nonspecial_dir {q : FPath} (h : isSpecial q = false)
    (dl : Nat) (its : List FSItem) :
    inspectDir q (.dir dl its)
      = (.ok (.mk (processItems q (dl % W64) its).size q
              (sortChildren (processItems q (dl % W64) its).children) true false),
         (processItems q (dl % W64) its).trace) := by
  rw [inspectDir.eq_def]
  simp [h]

theorem processItems_append (p : FPath) (xs ys : List FSItem) : ∀ acc,
    processItems p acc (xs ++ ys)
      = ⟨(processItems p (processItems p acc xs).size ys).size,
         (processItems p acc xs).children
           ++ (processItems p (processItems p acc xs).size ys).children,
         (processItems p acc xs).trace
           ++ (processItems p (processItems p acc xs).size ys).trace⟩ := by
  induction xs with
  | nil => intro acc; simp
  | cons it rest ih =>
    intro acc
    cases it with
    | entryErr err => simp [ih]
    | entry nm sub =>
      cases sub with
      | metaErr e => simp [ih]
      | file l => simp [ih]
      | other l => simp [ih]
      | dirErr dl de =>
        rw [List.cons_append, processItems_dirErr, processItems_dirErr]
        cases h : (inspectDir (p ++ [nm]) (.dirErr dl de)).1 <;> simp [h, ih]
      | dir dl its =>
        rw [List.cons_append, processItems_dir, processItems_dir]
        cases h : (inspectDir (p ++ [nm]) (.dir dl its)).1 <;> simp [h, ih]

/-- C2 counterexample: with a listing that errors on its first item and then
yields file `b`, `inspect_dir` still consumes and indexes `b` after invoking
the hook — enumeration does not stop at the error, so the children collected
before the error are not final. -/
theorem c2_counterexample :
    inspectDir ["r"] (.dir 0 [.entryErr 5, .entry "b" (.file 7)])
      = (.ok (.mk 7 ["r"] [.mk 7 ["r", "b"] [] false false] true false),
         [.failedEntry 5 ["r"]])
    ∧ (Node.mk 7 ["r"] [.mk 7 ["r", "b"] [] false false] true false).children
        ≠ [] := by
  constructor
  · rfl
  · simp

/-- C2 amended: when the directory-listing iterator yields an error, the
`on_entry_failure` hook is invoked and that item is skipped; enumeration
continues, the remaining entries being consumed exactly as they would be had
the erroring item not been there (same resulting node, same remaining hook
events). -/
theorem c2_entry_error_amended (p : FPath) (len err : Nat)
    (xs ys : List FSItem) (h : isSpecial p = false) :
    (inspectDir p (.dir len (xs ++ .entryErr err :: ys))).1
        = (inspectDir p (.dir len (xs ++ ys))).1
    ∧ ∃ t1 t2,
        (inspectDir p (.dir len (xs ++ .entryErr err :: ys))).2
          = t1 ++ HookEvent.failedEntry err p :: t2
        ∧ (inspectDir p (.dir len (xs ++ ys))).2 = t1 ++ t2 := by
  rw [inspectDir_nonspecial_dir h, inspectDir_nonspecial_dir h]
  rw [processItems_append p xs (FSItem.entryErr err :: ys),
    processItems_append p xs ys]
  refine ⟨by simp, (processItems p (len % W64) xs).trace,
    (processItems p (processItems p (len % W64) xs).size ys).trace, by simp, rfl⟩

theorem c2_entry_error_amended_witness :
    ((inspectDir ["r"]
        (.dir 0 [.entry "z" (.file 1), .entryErr 5, .entry "b" (.file 7)])).1
      = (inspectDir ["r"]
          (.dir 0 [.entry "z" (.file 1), .entry "b" (.file 7)])).1)
    ∧ ∃ t1 t2,
        (inspectDir ["r"]
            (.dir 0 [.entry "z" (.file 1), .entryErr 5, .entry "b" (.file 7)])).2
          = t1 ++ HookEvent.failedEntry 5 ["r"] :: t2
        ∧ (inspectDir ["r"]
            (.dir 0 [.entry "z" (.file 1), .entry "b" (.file 7)])).2 = t1 ++ t2 :=
  c2_entry_error_amended ["r"] 0 5 [.entry "z" (.file 1)]
    [.entry "b" (.file 7)] (by decide)

/-- Shared form of the special-path shortcut of `inspect_dir`. -/
theorem inspectDir_special {q : FPath} (h : isSpecial q = true) (e : FSEntry) :
    inspectDir q e = (.ok (.mk 0 q [] true false), []) := by
  rw [inspectDir.eq_def]
  simp [h, Node.new]

/-- The metadata length the `metadata` call reports for an entry (irrelevant
for a failing call). -/
def lenOf : FSEntry → Nat
  | .metaErr _ => 0
  | .file l => l
  | .other l => l
  | .dirErr l _ => l
  | .dir l _ => l

mutual

/-- The exact (unwrapped) total of the successfully indexed contributions
below a path: the directory's own metadata length plus, per listed entry,
a file's length or a successfully scanned subdirectory's total; entries whose
metadata fails, iterator errors, non-file-non-dir entries and subdirectories
whose scan fails contribute 0; special paths are never traversed and count 0. -/
def indexedSize (p : FPath) (e : FSEntry) : Nat :=
  if isSpecial p then 0
  else
    match e with
    | .dir len items => len + indexedItems p items
    | _ => 0

def indexedItems (p : FPath) : List FSItem → Nat
  | [] => 0
  | .entryErr _ :: rest => indexedItems p rest
  | .entry nm sub :: rest =>
    (match sub with
     | .file l => l
     | .dirErr dl de => indexedSize (p ++ [nm]) (.dirErr dl de)
     | .dir dl its => indexedSize (p ++ [nm]) (.dir dl its)
     | _ => 0) + indexedItems p rest

end

theorem indexedSize_special {q : FPath} (h : isSpecial q = true) (e : FSEntry) :
    indexedSize q e = 0 := by
  rw [indexedSize.eq_def]
  simp [h]

theorem indexedSize_nonspecial_dir {q : FPath} (h : isSpecial q = false)
    (dl : Nat) (its : List FSItem) :
    indexedSize q (.dir dl its) = dl + indexedItems q its := by
  rw [indexedSize.eq_def]
  simp [h]

theorem indexedSize_nonspecial_dirErr {q : FPath} (h : isSpecial q = false)
    (dl de : Nat) : indexedSize q (.dirErr dl de) = 0 := by
  rw [indexedSize.eq_def]
  simp [h]

@[simp] theorem indexedItems_nil (p : FPath) : indexedItems p [] = 0 := rfl

@[simp] theorem indexedItems_entryErr (p : FPath) (err : Nat) (rest : List FSItem) :
    indexedItems p (.entryErr err :: rest) = indexedItems p rest := rfl

@[simp] theorem indexedItems_metaErr (p : FPath) (err : Nat) (nm : String)
    (rest : List FSItem) :
    indexedItems p (.entry nm (.metaErr err) :: rest) = indexedItems p rest :=
  (rfl : indexedItems p (.entry nm (.metaErr err) :: rest)
      = 0 + indexedItems p rest).trans (Nat.zero_add _)

@[simp] theorem indexedItems_file (p : FPath) (l : Nat) (nm : String)
    (rest : List FSItem) :
    indexedItems p (.entry nm (.file l) :: rest) = l + indexedItems p rest := rfl

@[simp] theorem indexedItems_other (p : FPath) (l : Nat) (nm : String)
    (rest : List FSItem) :
    indexedItems p (.entry nm (.other l) :: rest) = indexedItems p rest :=
  (rfl : indexedItems p (.entry nm (.other l) :: rest)
      = 0 + indexedItems p rest).trans (Nat.zero_add _)

@[simp] theorem indexedItems_dirErr (p : FPath) (dl de : Nat) (nm : String)
    (rest : List FSItem) :
    indexedItems p (.entry nm (.dirErr dl de) :: rest)
      = indexedSize (p ++ [nm]) (.dirErr dl de) + indexedItems p rest := rfl

@[simp] theorem indexedItems_dir (p : FPath) (dl : Nat) (its : List FSItem)
    (nm : String) (rest : List FSItem) :
    indexedItems p (.entry nm (.dir dl its) :: rest)
      = indexedSize (p ++ [nm]) (.dir dl its) + indexedItems p rest := rfl

theorem W64_pos : 0 < W64 := by norm_num [W64]

theorem wadd_lt (a b : Nat) : wadd a b < W64 := Nat.mod_lt _ W64_pos

@[simp] theorem Node.size_new (s : Nat) (nm : FPath) (d : Bool) :
    (Node.new s nm d).size = s % W64 := rfl

theorem inspectDir_nonspecial_dirErr {q : FPath} (h : isSpecial q = false)
    (dl de : Nat) : inspectDir q (.dirErr dl de) = (.error de, []) := by
  rw [inspectDir.eq_def]
  simp [h]

theorem processItems_dir_ok {p : FPath} {nm : String} {dl : Nat}
    {its : List FSItem} {child : Node}
    (h : (inspectDir (p ++ [nm]) (.dir dl its)).1 = .ok child)
    (acc : Nat) (rest : List FSItem) :
    processItems p acc (.entry nm (.dir dl its) :: rest)
      = ⟨(processItems p (wadd acc child.size) rest).size,
         child :: (processItems p (wadd acc child.size) rest).children,
         (inspectDir (p ++ [nm]) (.dir dl its)).2
           ++ .indexedBytes child.size
             :: (processItems p (wadd acc child.size) rest).trace⟩ := by
  rw [processItems_dir, h]

theorem processItems_dir_error {p : FPath} {nm : String} {dl : Nat}
    {its : List FSItem} {err : Nat}
    (h : (inspectDir (p ++ [nm]) (.dir dl its)).1 = .error err)
    (acc : Nat) (rest : List FSItem) :
    processItems p acc (.entry nm (.dir dl its) :: rest)
      = ⟨(processItems p acc rest).size, (processItems p acc rest).children,
         (inspectDir (p ++ [nm]) (.dir dl its)).2
           ++ .failedInspection err (p ++ [nm])
             :: (processItems p acc rest).trace⟩ := by
  rw [processItems_dir, h]

theorem processItems_dirErr_ok {p : FPath} {nm : String} {dl de : Nat}
    {child : Node}
    (h : (inspectDir (p ++ [nm]) (.dirErr dl de)).1 = .ok child)
    (acc : Nat) (rest : List FSItem) :
    processItems p acc (.entry nm (.dirErr dl de) :: rest)
      = ⟨(processItems p (wadd acc child.size) rest).size,
         child :: (processItems p (wadd acc child.size) rest).children,
         (inspectDir (p ++ [nm]) (.dirErr dl de)).2
           ++ .indexedBytes child.size
             :: (processItems p (wadd acc child.size) rest).trace⟩ := by
  rw [processItems_dirErr, h]

theorem processItems_dirErr_error {p : FPath} {nm : String} {dl de : Nat}
    {err : Nat}
    (h : (inspectDir (p ++ [nm]) (.dirErr dl de)).1 = .error err)
    (acc : Nat) (rest : List FSItem) :
    processItems p acc (.entry nm (.dirErr dl de) :: rest)
      = ⟨(processItems p acc rest).size, (processItems p acc rest).children,
         (inspectDir (p ++ [nm]) (.dirErr dl de)).2
           ++ .failedInspection err (p ++ [nm])
             :: (processItems p acc rest).trace⟩ := by
  rw [processItems_dirErr, h]

theorem wadd_zero {acc : Nat} (hacc : acc < W64) : wadd acc 0 = acc := by
  simp [wadd, Nat.mod_eq_of_lt hacc]

theorem processItems_size_indexed (p : FPath) (items : List FSItem)
    (hsub : ∀ nm sub, FSItem.entry nm sub ∈ items →
      ∀ n, (inspectDir (p ++ [nm]) sub).1 = .ok n →
        n.size = indexedSize (p ++ [nm]) sub % W64) :
    ∀ acc, acc < W64 →
      (processItems p acc items).size = (acc + indexedItems p items) % W64 := by
  induction items with
  | nil =>
    intro acc hacc
    simp [Nat.mod_eq_of_lt hacc]
  | cons it rest ih =>
    have hsub' : ∀ nm sub, FSItem.entry nm sub ∈ rest →
        ∀ n, (inspectDir (p ++ [nm]) sub).1 = .ok n →
          n.size = indexedSize (p ++ [nm]) sub % W64 :=
      fun nm sub hs => hsub nm sub (by simp [hs])
    intro acc hacc
    cases it with
    | entryErr err => simp [ih hsub' acc hacc]
    | entry nm sub =>
      cases sub with
      | metaErr e => simp [ih hsub' acc hacc]
      | file l =>
        have hrec := ih hsub' (wadd acc l) (wadd_lt acc l)
        simp only [processItems_file, indexedItems_file]
        rw [hrec]
        simp only [wadd, W64]
        omega
      | other l => simp [ih hsub' acc hacc]
      | dirErr dl de =>
        by_cases hsp : isSpecial (p ++ [nm]) = true
        · have hok : (inspectDir (p ++ [nm]) (.dirErr dl de)).1
              = .ok (.mk 0 (p ++ [nm]) [] true false) := by
            rw [inspectDir_special hsp]
          rw [processItems_dirErr_ok hok acc rest]
          simp [wadd_zero hacc, ih hsub' acc hacc, indexedSize_special hsp]
        · have hsp' : isSpecial (p ++ [nm]) = false := by simpa using hsp
          have herr : (inspectDir (p ++ [nm]) (.dirErr dl de)).1
              = .error de := by
            rw [inspectDir_nonspecial_dirErr hsp' dl de]
          rw [processItems_dirErr_error herr acc rest]
          simp [ih hsub' acc hacc, indexedSize_nonspecial_dirErr hsp']
      | dir dl its =>
        by_cases hsp : isSpecial (p ++ [nm]) = true
        · have hok : (inspectDir (p ++ [nm]) (.dir dl its)).1
              = .ok (.mk 0 (p ++ [nm]) [] true false) := by
            rw [inspectDir_special hsp]
          rw [processItems_dir_ok hok acc rest]
          simp [wadd_zero hacc, ih hsub' acc hacc, indexedSize_special hsp]
        · have hsp' : isSpecial (p ++ [nm]) = false := by simpa using hsp
          have hok : (inspectDir (p ++ [nm]) (.dir dl its)).1
              = .ok (.mk (processItems (p ++ [nm]) (dl % W64) its).size (p ++ [nm])
                  (sortChildren (processItems (p ++ [nm]) (dl % W64) its).children)
                  true false) := by
            rw [inspectDir_nonspecial_dir hsp' dl its]
          have hsz := hsub nm (.dir dl its) (by simp) _ hok
          simp only [Node.size_mk] at hsz
          rw [processItems_dir_ok hok acc rest]
          have hrec := ih hsub'
            (wadd acc (Node.mk (processItems (p ++ [nm]) (dl % W64) its).size
              (p ++ [nm])
              (sortChildren (processItems (p ++ [nm]) (dl % W64) its).children)
              true false).size)
            (wadd_lt _ _)
          simp only [Node.size_mk] at hrec
          simp only [Node.size_mk, indexedItems_dir]
          rw [hrec, hsz]
          simp only [wadd, W64]
          omega

/-- The size stored in the node `inspect_dir` returns is the wrapped value of
the exact indexed total. -/
theorem inspectDir_size :
    ∀ e : FSEntry, ∀ q n, (inspectDir q e).1 = .ok n →
      n.size = indexedSize q e % W64 := by
  intro e
  induction e using fsInduct with
  | hm err =>
    intro q n h
    by_cases hsp : isSpecial q = true
    · rw [inspectDir_special hsp] at h
      cases h
      simp [indexedSize_special hsp]
    · have hsp' : isSpecial q = false := by simpa using hsp
      rw [inspectDir.eq_def] at h
      simp [hsp'] at h
  | hf l =>
    intro q n h
    by_cases hsp : isSpecial q = true
    · rw [inspectDir_special hsp] at h
      cases h
      simp [indexedSize_special hsp]
    · have hsp' : isSpecial q = false := by simpa using hsp
      rw [inspectDir.eq_def] at h
      simp [hsp'] at h
  | ho l =>
    intro q n h
    by_cases hsp : isSpecial q = true
    · rw [inspectDir_special hsp] at h
      cases h
      simp [indexedSize_special hsp]
    · have hsp' : isSpecial q = false := by simpa using hsp
      rw [inspectDir.eq_def] at h
      simp [hsp'] at h
  | hde l err =>
    intro q n h
    by_cases hsp : isSpecial q = true
    · rw [inspectDir_special hsp] at h
      cases h
      simp [indexedSize_special hsp]
    · have hsp' : isSpecial q = false := by simpa using hsp
      rw [inspectDir_nonspecial_dirErr hsp' l err] at h
      cases h
  | hd l items ih =>
    intro q n h
    by_cases hsp : isSpecial q = true
    · rw [inspectDir_special hsp] at h
      cases h
      simp [indexedSize_special hsp]
    · have hsp' : isSpecial q = false := by simpa using hsp
      rw [inspectDir_nonspecial_dir hsp' l items] at h
      cases h
      have hsub : ∀ nm sub, FSItem.entry nm sub ∈ items →
          ∀ n', (inspectDir (q ++ [nm]) sub).1 = .ok n' →
            n'.size = indexedSize (q ++ [nm]) sub % W64 :=
        fun nm sub hs => ih nm sub hs (q ++ [nm])
      have := processItems_size_indexed q items hsub (l % W64)
        (Nat.mod_lt _ W64_pos)
      rw [indexedSize_nonspecial_dir hsp' l items]
      simp only [Node.size_mk]
      rw [this]
      simp only [W64]
      omega

theorem processItems_size_children (p : FPath) (items : List FSItem) :
    ∀ acc, acc < W64 →
      (processItems p acc items).size
        = (acc + ((processItems p acc items).children.map Node.size).sum)
            % W64 := by
  induction items with
  | nil =>
    intro acc hacc
    simp [Nat.mod_eq_of_lt hacc]
  | cons it rest ih =>
    intro acc hacc
    cases it with
    | entryErr err => simp [ih acc hacc]
    | entry nm sub =>
      cases sub with
      | metaErr e => simp [ih acc hacc]
      | file l =>
        have hrec := ih (wadd acc l) (wadd_lt acc l)
        simp only [processItems_file, List.map_cons, List.sum_cons, Node.size_new]
        rw [hrec]
        simp only [wadd, W64]
        omega
      | other l => simp [ih acc hacc]
      | dirErr dl de =>
        rcases hde : (inspectDir (p ++ [nm]) (.dirErr dl de)).1 with err | child
        · rw [processItems_dirErr_error hde acc rest]
          exact ih acc hacc
        · rw [processItems_dirErr_ok hde acc rest]
          have hrec := ih (wadd acc child.size) (wadd_lt acc child.size)
          simp only [List.map_cons, List.sum_cons]
          rw [hrec]
          simp only [wadd, W64]
          omega
      | dir dl its =>
        rcases hde : (inspectDir (p ++ [nm]) (.dir dl its)).1 with err | child
        · rw [processItems_dir_error hde acc rest]
          exact ih acc hacc
        · rw [processItems_dir_ok hde acc rest]
          have hrec := ih (wadd acc child.size) (wadd_lt acc child.size)
          simp only [List.map_cons, List.sum_cons]
          rw [hrec]
          simp only [wadd, W64]
          omega

theorem childOrigin_lift {p : FPath} {it : FSItem} {rest : List FSItem} {c : Node}
    (h : (∃ nm l, FSItem.entry nm (.file l) ∈ rest
            ∧ c = Node.new l (p ++ [nm]) false)
      ∨ (∃ nm sub, FSItem.entry nm sub ∈ rest
            ∧ (inspectDir (p ++ [nm]) sub).1 = .ok c)) :
    (∃ nm l, FSItem.entry nm (.file l) ∈ it :: rest
        ∧ c = Node.new l (p ++ [nm]) false)
    ∨ (∃ nm sub, FSItem.entry nm sub ∈ it :: rest
        ∧ (inspectDir (p ++ [nm]) sub).1 = .ok c) := by
  rcases h with ⟨nm, l, hm, he⟩ | ⟨nm, sub, hm, he⟩
  · exact Or.inl ⟨nm, l, by simp [hm], he⟩
  · exact Or.inr ⟨nm, sub, by simp [hm], he⟩

/-- Every child node produced by the entry loop is either a fresh file leaf
for a listed file entry or the `Ok` result of the recursive scan of a listed
entry. -/
theorem processItems_children_origin (p : FPath) (items : List FSItem) :
    ∀ acc, ∀ c ∈ (processItems p acc items).children,
      (∃ nm l, FSItem.entry nm (.file l) ∈ items
          ∧ c = Node.new l (p ++ [nm]) false)
      ∨ (∃ nm sub, FSItem.entry nm sub ∈ items
          ∧ (inspectDir (p ++ [nm]) sub).1 = .ok c) := by
  induction items with
  | nil => intro acc c hc; simp at hc
  | cons it rest ih =>
    intro acc c hc
    cases it with
    | entryErr err =>
      simp only [processItems_entryErr] at hc
      exact childOrigin_lift (ih acc c hc)
    | entry nm sub =>
      cases sub with
      | metaErr e =>
        simp only [processItems_metaErr] at hc
        exact childOrigin_lift (ih acc c hc)
      | file l =>
        simp only [processItems_file, List.mem_cons] at hc
        rcases hc with rfl | hc
        · exact Or.inl ⟨nm, l, by simp, rfl⟩
        · exact childOrigin_lift (ih (wadd acc l) c hc)
      | other l =>
        simp only [processItems_other] at hc
        exact childOrigin_lift (ih acc c hc)
      | dirErr dl de =>
        rcases hde : (inspectDir (p ++ [nm]) (.dirErr dl de)).1 with err | child
        · rw [processItems_dirErr_error hde acc rest] at hc
          exact childOrigin_lift (ih acc c hc)
        · rw [processItems_dirErr_ok hde acc rest] at hc
          simp only [List.mem_cons] at hc
          rcases hc with rfl | hc
          · exact Or.inr ⟨nm, .dirErr dl de, by simp, hde⟩
          · exact childOrigin_lift (ih (wadd acc child.size) c hc)
      | dir dl its =>
        rcases hde : (inspectDir (p ++ [nm]) (.dir dl its)).1 with err | child
        · rw [processItems_dir_error hde acc rest] at hc
          exact childOrigin_lift (ih acc c hc)
        · rw [processItems_dir_ok hde acc rest] at hc
          simp only [List.mem_cons] at hc
          rcases hc with rfl | hc
          · exact Or.inr ⟨nm, .dir dl its, by simp, hde⟩
          · exact childOrigin_lift (ih (wadd acc child.size) c hc)

theorem mem_sortChildren {c : Node} {cs : List Node} :
    c ∈ sortChildren cs ↔ c ∈ cs :=
  (List.perm_insertionSort nodeLe cs).mem_iff

theorem closure_of_special {q : FPath} {n : Node} (e : FSEntry)
    (hsp : isSpecial q = true) (h : (inspectDir q e).1 = .ok n) :
    ∀ m ∈ treeNodes n, ∃ q' e', (inspectDir q' e').1 = .ok m := by
  rw [inspectDir_special hsp] at h
  cases h
  intro m hm
  simp at hm
  subst hm
  exact ⟨q, e, by rw [inspectDir_special hsp]⟩

/-- Every directory node inside a tree returned by `inspect_dir` is itself
the `Ok` result of an `inspect_dir` call. -/
theorem inspectDir_closure :
    ∀ e : FSEntry, ∀ q n, (inspectDir q e).1 = .ok n →
      ∀ m ∈ treeNodes n, m.is_directory = true →
        ∃ q' e', (inspectDir q' e').1 = .ok m := by
  intro e
  induction e using fsInduct with
  | hm err =>
    intro q n h m hmem _
    by_cases hsp : isSpecial q = true
    · exact closure_of_special _ hsp h m hmem
    · have hsp' : isSpecial q = false := by simpa using hsp
      rw [inspectDir.eq_def] at h
      simp [hsp'] at h
  | hf l =>
    intro q n h m hmem _
    by_cases hsp : isSpecial q = true
    · exact closure_of_special _ hsp h m hmem
    · have hsp' : isSpecial q = false := by simpa using hsp
      rw [inspectDir.eq_def] at h
      simp [hsp'] at h
  | ho l =>
    intro q n h m hmem _
    by_cases hsp : isSpecial q = true
    · exact closure_of_special _ hsp h m hmem
    · have hsp' : isSpecial q = false := by simpa using hsp
      rw [inspectDir.eq_def] at h
      simp [hsp'] at h
  | hde l err =>
    intro q n h m hmem _
    by_cases hsp : isSpecial q = true
    · exact closure_of_special _ hsp h m hmem
    · have hsp' : isSpecial q = false := by simpa using hsp
      rw [inspectDir_nonspecial_dirErr hsp' l err] at h
      cases h
  | hd l items ih =>
    intro q n h m hmem hdir
    by_cases hsp : isSpecial q = true
    · exact closure_of_special _ hsp h m hmem
    · have hsp' : isSpecial q = false := by simpa using hsp
      rw [inspectDir_nonspecial_dir hsp' l items] at h
      cases h
      rcases mem_treeNodes_iff.mp hmem with rfl | ⟨c, hc, hmc⟩
      · exact ⟨q, .dir l items, by rw [inspectDir_nonspecial_dir hsp' l items]⟩
      · simp only [Node.children_mk] at hc
        have hc' : c ∈ (processItems q (l % W64) items).children :=
          mem_sortChildren.mp hc
        rcases processItems_children_origin q items (l % W64) c hc'
            with ⟨nm, fl, hmem', rfl⟩ | ⟨nm, sub, hmem', hok⟩
        · have : m = Node.new fl (q ++ [nm]) false := by
            simpa [Node.new] using hmc
          subst this
          simp [Node.new] at hdir
        · exact ih nm sub hmem' (q ++ [nm]) c hok m hmc hdir

/-- The size of any node `inspect_dir` returns equals (wrapped) the entry's
own metadata length plus the sum of its direct children's sizes, special
paths counting 0. -/
theorem inspectDir_node_size_eq :
    ∀ (e : FSEntry) (q : FPath) (n : Node), (inspectDir q e).1 = .ok n →
      n.size = ((if isSpecial q then 0 else lenOf e)
          + (n.children.map Node.size).sum) % W64 := by
  intro e q n h
  by_cases hsp : isSpecial q = true
  · rw [inspectDir_special hsp] at h
    cases h
    simp [hsp]
  · have hsp' : isSpecial q = false := by simpa using hsp
    cases e with
    | metaErr err =>
      rw [inspectDir.eq_def] at h
      simp [hsp'] at h
    | file l =>
      rw [inspectDir.eq_def] at h
      simp [hsp'] at h
    | other l =>
      rw [inspectDir.eq_def] at h
      simp [hsp'] at h
    | dirErr l err =>
      rw [inspectDir_nonspecial_dirErr hsp' l err] at h
      cases h
    | dir l items =>
      rw [inspectDir_nonspecial_dir hsp' l items] at h
      cases h
      have h1 := processItems_size_children q items (l % W64)
        (Nat.mod_lt _ W64_pos)
      have hperm :
          ((sortChildren (processItems q (l % W64) items).children).map
              Node.size).sum
            = ((processItems q (l % W64) items).children.map Node.size).sum :=
        ((List.perm_insertionSort nodeLe _).map Node.size).sum_eq
      have hif : (if isSpecial q then 0 else lenOf (FSEntry.dir l items)) = l := by
        simp [hsp', lenOf]
      simp only [Node.size_mk, Node.children_mk]
      rw [hperm, h1, hif]
      generalize ((processItems q (l % W64) items).children.map Node.size).sum = S
      simp only [W64]
      omega

/-- C1 counterexample: a directory with metadata length 4096 containing one
10-byte file indexes to a node of size 4106, not 10 — the directory's own
metadata length contributes, so a directory's size is not the sum of its
children's sizes. -/
theorem c1_counterexample :
    (inspectDir ["r"] (.dir 4096 [.entry "a" (.file 10)])).1
        = .ok (.mk 4106 ["r"] [.mk 10 ["r", "a"] [] false false] true false)
    ∧ (Node.mk 4106 ["r"] [.mk 10 ["r", "a"] [] false false] true false).size
        ≠ ((Node.mk 4106 ["r"] [.mk 10 ["r", "a"] [] false false]
            true false).children.map Node.size).sum :=
  ⟨rfl, by decide⟩

/-- C1 amended: for every directory node in a tree returned by `inspect_dir`,
the node's size equals, modulo 2^64, the directory's own metadata length
(0 for an untraversed special path) plus the sum of the sizes of its direct
children, and recursively equals, modulo 2^64, the exact total of all
successfully indexed descendant file sizes and directory metadata lengths
(failed descendants contributing 0, per `indexedSize`). -/
theorem c1_dir_size_amended (q : FPath) (e : FSEntry) (n : Node)
    (h : (inspectDir q e).1 = .ok n) :
    ∀ m ∈ treeNodes n, m.is_directory = true →
      ∃ q' e', (inspectDir q' e').1 = .ok m
        ∧ m.size = ((if isSpecial q' then 0 else lenOf e')
            + (m.children.map Node.size).sum) % W64
        ∧ m.size = indexedSize q' e' % W64 := by
  intro m hm hdir
  rcases inspectDir_closure e q n h m hm hdir with ⟨q', e', hok⟩
  exact ⟨q', e', hok, inspectDir_node_size_eq e' q' m hok,
    inspectDir_size e' q' m hok⟩

theorem c1_dir_size_amended_witness :
    ∃ q' e',
      (inspectDir q' e').1
          = .ok (.mk 4106 ["r"] [.mk 10 ["r", "a"] [] false false] true false)
      ∧ (Node.mk 4106 ["r"] [.mk 10 ["r", "a"] [] false false] true false).size
          = ((if isSpecial q' then 0 else lenOf e')
              + ((Node.mk 4106 ["r"] [.mk 10 ["r", "a"] [] false false]
                  true false).children.map Node.size).sum) % W64
      ∧ (Node.mk 4106 ["r"] [.mk 10 ["r", "a"] [] false false]
          true false).size = indexedSize q' e' % W64 :=
  c1_dir_size_amended ["r"] (.dir 4096 [.entry "a" (.file 10)])
    (.mk 4106 ["r"] [.mk 10 ["r", "a"] [] false false] true false) rfl
    (.mk 4106 ["r"] [.mk 10 ["r", "a"] [] false false] true false)
    (self_mem_treeNodes _) rfl

theorem strCmp_eq_iff (a b : String) : strCmp a b = .eq ↔ a = b := by
  unfold strCmp
  rcases lt_trichotomy a b with h | h | h
  · simp [h, h.ne]
  · subst h
    simp [lt_irrefl]
  · simp [h, h.asymm, h.ne']

theorem strCmp_lt_iff (a b : String) : strCmp a b = .lt ↔ a < b := by
  unfold strCmp
  rcases lt_trichotomy a b with h | h | h
  · simp [h]
  · subst h
    simp [lt_irrefl]
  · simp [h, h.asymm]

theorem strCmp_gt_iff (a b : String) : strCmp a b = .gt ↔ b < a := by
  unfold strCmp
  rcases lt_trichotomy a b with h | h | h
  · simp [h, h.asymm]
  · subst h
    simp [lt_irrefl]
  · simp [h, h.asymm]

theorem pathCmp_eq_iff : ∀ a b : FPath, pathCmp a b = .eq ↔ a = b := by
  intro a
  induction a with
  | nil =>
    intro b
    cases b <;> simp [pathCmp]
  | cons x xs ih =>
    intro b
    cases b with
    | nil => simp [pathCmp]
    | cons y ys =>
      simp only [pathCmp]
      rcases hxy : strCmp x y with _ | _ | _
      · have : x ≠ y := fun hc => by
          rw [hc] at hxy
          rw [(strCmp_eq_iff y y).mpr rfl] at hxy
          cases hxy
        simp [this]
      · have hx := (strCmp_eq_iff x y).mp hxy
        subst hx
        simp [ih ys]
      · have : x ≠ y := fun hc => by
          rw [hc] at hxy
          rw [(strCmp_eq_iff y y).mpr rfl] at hxy
          cases hxy
        simp [this]

theorem pathLe_trans : ∀ a b c : FPath,
    pathCmp a b ≠ .gt → pathCmp b c ≠ .gt → pathCmp a c ≠ .gt := by
  intro a
  induction a with
  | nil =>
    intro b c _ _
    cases c <;> simp [pathCmp]
  | cons x xs ih =>
    intro b c hab hbc
    cases b with
    | nil => simp [pathCmp] at hab
    | cons y ys =>
      cases c with
      | nil => simp [pathCmp] at hbc
      | cons z zs =>
        simp only [pathCmp] at hab hbc ⊢
        rcases hxy : strCmp x y with _ | _ | _
        · rcases hyz : strCmp y z with _ | _ | _
          · have hxz : strCmp x z = .lt := (strCmp_lt_iff x z).mpr
              (((strCmp_lt_iff x y).mp hxy).trans ((strCmp_lt_iff y z).mp hyz))
            rw [hxz]
            simp
          · have hy := (strCmp_eq_iff y z).mp hyz
            subst hy
            rw [hxy]
            simp
          · rw [hyz] at hbc
            simp at hbc
        · have hx := (strCmp_eq_iff x y).mp hxy
          subst hx
          rw [hxy] at hab
          simp only [] at hab
          generalize hyz : strCmp x z = o at hbc ⊢
          cases o with
          | lt => simp
          | eq =>
            simp only [] at hbc ⊢
            exact ih ys zs hab hbc
          | gt => simp at hbc
        · rw [hxy] at hab
          simp at hab

theorem pathCmp_swap : ∀ a b : FPath, pathCmp b a = (pathCmp a b).swap := by
  intro a
  induction a with
  | nil =>
    intro b
    cases b <;> simp [pathCmp, Ordering.swap]
  | cons x xs ih =>
    intro b
    cases b with
    | nil => simp [pathCmp, Ordering.swap]
    | cons y ys =>
      simp only [pathCmp]
      rcases hxy : strCmp x y with _ | _ | _
      · have : strCmp y x = .gt :=
          (strCmp_gt_iff y x).mpr ((strCmp_lt_iff x y).mp hxy)
        rw [this]
        rfl
      · have hx := (strCmp_eq_iff x y).mp hxy
        subst hx
        rw [(strCmp_eq_iff x x).mpr rfl]
        exact ih ys
      · have : strCmp y x = .lt :=
          (strCmp_lt_iff y x).mpr ((strCmp_gt_iff x y).mp hxy)
        rw [this]
        rfl

theorem pathLe_total (a b : FPath) : pathCmp a b ≠ .gt ∨ pathCmp b a ≠ .gt := by
  rcases h : pathCmp a b with _ | _ | _
  · left; simp
  · left; simp
  · right
    rw [pathCmp_swap a b, h]
    simp [Ordering.swap]

theorem nodeLe_iff (a b : Node) :
    nodeLe a b ↔ (a.is_directory = true ∧ b.is_directory = false)
      ∨ (a.is_directory = b.is_directory ∧ pathCmp a.name b.name ≠ .gt) := by
  unfold nodeLe cmpNode
  cases hda : a.is_directory <;> cases hdb : b.is_directory <;> simp

instance : IsTotal Node nodeLe where
  total a b := by
    rcases pathLe_total a.name b.name with h | h
    · cases hda : a.is_directory <;> cases hdb : b.is_directory
      · exact Or.inl ((nodeLe_iff a b).mpr (Or.inr (by simp [hda, hdb, h])))
      · exact Or.inr ((nodeLe_iff b a).mpr (Or.inl (by simp [hda, hdb])))
      · exact Or.inl ((nodeLe_iff a b).mpr (Or.inl (by simp [hda, hdb])))
      · exact Or.inl ((nodeLe_iff a b).mpr (Or.inr (by simp [hda, hdb, h])))
    · cases hda : a.is_directory <;> cases hdb : b.is_directory
      · exact Or.inr ((nodeLe_iff b a).mpr (Or.inr (by simp [hda, hdb, h])))
      · exact Or.inr ((nodeLe_iff b a).mpr (Or.inl (by simp [hda, hdb])))
      · exact Or.inl ((nodeLe_iff a b).mpr (Or.inl (by simp [hda, hdb])))
      · exact Or.inr ((nodeLe_iff b a).mpr (Or.inr (by simp [hda, hdb, h])))

instance : IsTrans Node nodeLe where
  trans a b c hab hbc := by
    rcases (nodeLe_iff a b).mp hab with ⟨ha, hb⟩ | ⟨hab', hpab⟩ <;>
      rcases (nodeLe_iff b c).mp hbc with ⟨hb', hc⟩ | ⟨hbc', hpbc⟩
    · rw [hb] at hb'
      cases hb'
    · exact (nodeLe_iff a c).mpr (Or.inl ⟨ha, hbc' ▸ hb⟩)
    · exact (nodeLe_iff a c).mpr (Or.inl ⟨hab' ▸ hb', hc⟩)
    · exact (nodeLe_iff a c).mpr
        (Or.inr ⟨hab'.trans hbc', pathLe_trans _ _ _ hpab hpbc⟩)

/-- The order the spec asserts on a directory's children: directories strictly
before files, and strictly ascending path order inside each group. -/
def childOrd (a b : Node) : Prop :=
  (a.is_directory = true ∧ b.is_directory = false)
  ∨ (a.is_directory = b.is_directory ∧ pathCmp a.name b.name = .lt)

theorem nodeLe_ne_imp_childOrd {a b : Node} (h1 : nodeLe a b)
    (h2 : a.name ≠ b.name) : childOrd a b := by
  rcases (nodeLe_iff a b).mp h1 with ⟨hda, hdb⟩ | ⟨heq, hcmp⟩
  · exact Or.inl ⟨hda, hdb⟩
  · refine Or.inr ⟨heq, ?_⟩
    rcases hp : pathCmp a.name b.name with _ | _ | _
    · rfl
    · exact absurd ((pathCmp_eq_iff _ _).mp hp) h2
    · exact absurd hp hcmp

theorem sortChildren_sorted (cs : List Node) :
    List.Pairwise nodeLe (sortChildren cs) :=
  List.sorted_insertionSort nodeLe cs

/-- The names of the items the `read_dir` iterator yields successfully. -/
def okNames : List FSItem → List String
  | [] => []
  | .entryErr _ :: rest => okNames rest
  | .entry nm _ :: rest => nm :: okNames rest

/-- Whether the listed strings are pairwise distinct. -/
def distinctStrs : List String → Bool
  | [] => true
  | s :: rest => !(rest.any fun t => t == s) && distinctStrs rest

mutual

/-- Wellformedness of the modelled filesystem: inside each readable
directory listing, the successfully yielded entry names are distinct (as they
are on a real filesystem), recursively. -/
def FSWfb : FSEntry → Bool
  | .dir _ items => distinctStrs (okNames items) && FSWfItems items
  | _ => true

def FSWfItems : List FSItem → Bool
  | [] => true
  | .entryErr _ :: rest => FSWfItems rest
  | .entry _ sub :: rest => FSWfb sub && FSWfItems rest

end

theorem FSWfb_dir (l : Nat) (items : List FSItem) :
    FSWfb (.dir l items) = (distinctStrs (okNames items) && FSWfItems items) :=
  rfl

theorem FSWfItems_mem : ∀ items : List FSItem, FSWfItems items = true →
    ∀ nm sub, FSItem.entry nm sub ∈ items → FSWfb sub = true := by
  intro items
  induction items with
  | nil => intro _ nm sub h; simp at h
  | cons it rest ih =>
    intro hwf nm sub hmem
    cases it with
    | entryErr err =>
      rcases List.mem_cons.mp hmem with h | h
      · cases h
      · exact ih hwf nm sub h
    | entry nm' sub' =>
      have hwf' : FSWfb sub' = true ∧ FSWfItems rest = true := by
        simpa [FSWfItems, Bool.and_eq_true] using hwf
      rcases List.mem_cons.mp hmem with h | h
      · cases h
        exact hwf'.1
      · exact ih hwf'.2 nm sub h

theorem distinctStrs_nodup : ∀ l : List String, distinctStrs l = true → l.Nodup := by
  intro l
  induction l with
  | nil => intro _; simp
  | cons s rest ih =>
    intro h
    simp only [distinctStrs, Bool.and_eq_true, Bool.not_eq_true',
      List.any_eq_false, beq_iff_eq] at h
    rw [List.nodup_cons]
    refine ⟨fun hmem => absurd rfl (h.1 s hmem), ih h.2⟩

@[simp] theorem Node.name_new (s : Nat) (nm : FPath) (d : Bool) :
    (Node.new s nm d).name = nm := rfl

/-- The node `inspect_dir` returns carries the path it was called on. -/
theorem inspectDir_name :
    ∀ (e : FSEntry) (q : FPath) (n : Node), (inspectDir q e).1 = .ok n →
      n.name = q := by
  intro e q n h
  by_cases hsp : isSpecial q = true
  · rw [inspectDir_special hsp] at h
    cases h
    rfl
  · have hsp' : isSpecial q = false := by simpa using hsp
    cases e with
    | metaErr err => rw [inspectDir.eq_def] at h; simp [hsp'] at h
    | file l => rw [inspectDir.eq_def] at h; simp [hsp'] at h
    | other l => rw [inspectDir.eq_def] at h; simp [hsp'] at h
    | dirErr l err => rw [inspectDir_nonspecial_dirErr hsp' l err] at h; cases h
    | dir l items =>
      rw [inspectDir_nonspecial_dir hsp' l items] at h
      cases h
      rfl

@[simp] theorem okNames_nil : okNames [] = [] := rfl

@[simp] theorem okNames_entryErr (err : Nat) (rest : List FSItem) :
    okNames (.entryErr err :: rest) = okNames rest := rfl

@[simp] theorem okNames_entry (nm : String) (sub : FSEntry) (rest : List FSItem) :
    okNames (.entry nm sub :: rest) = nm :: okNames rest := rfl

/-- The paths of the children the entry loop builds form a sublist of the
listed entry names extended below the scanned path. -/
theorem processItems_children_names (p : FPath) (items : List FSItem) :
    ∀ acc, List.Sublist
      ((processItems p acc items).children.map Node.name)
      ((okNames items).map fun s => p ++ [s]) := by
  induction items with
  | nil => intro acc; simp
  | cons it rest ih =>
    intro acc
    cases it with
    | entryErr err => simpa using ih acc
    | entry nm sub =>
      cases sub with
      | metaErr e =>
        simp only [processItems_metaErr, okNames_entry, List.map_cons]
        exact (ih acc).cons _
      | file l =>
        simp only [processItems_file, okNames_entry, List.map_cons,
          Node.name_new]
        exact (ih (wadd acc l)).cons₂ _
      | other l =>
        simp only [processItems_other, okNames_entry, List.map_cons]
        exact (ih acc).cons _
      | dirErr dl de =>
        rcases hde : (inspectDir (p ++ [nm]) (.dirErr dl de)).1 with err | child
        · rw [processItems_dirErr_error hde acc rest]
          simp only [okNames_entry, List.map_cons]
          exact (ih acc).cons _
        · rw [processItems_dirErr_ok hde acc rest]
          simp only [okNames_entry, List.map_cons, List.map_cons]
          have hn := inspectDir_name _ _ _ hde
          simp only [List.map_cons, hn]
          exact (ih (wadd acc child.size)).cons₂ _
      | dir dl its =>
        rcases hde : (inspectDir (p ++ [nm]) (.dir dl its)).1 with err | child
        · rw [processItems_dir_error hde acc rest]
          simp only [okNames_entry, List.map_cons]
          exact (ih acc).cons _
        · rw [processItems_dir_ok hde acc rest]
          have hn := inspectDir_name _ _ _ hde
          simp only [okNames_entry, List.map_cons, hn]
          exact (ih (wadd acc child.size)).cons₂ _

theorem childrenNames_nodup (p : FPath) (items : List FSItem)
    (hd : distinctStrs (okNames items) = true) (acc : Nat) :
    ((processItems p acc items).children.map Node.name).Nodup := by
  have h1 : ((okNames items).map fun s => p ++ [s]).Nodup :=
    (distinctStrs_nodup _ hd).map (fun s t h => by simpa using h)
  exact h1.sublist (processItems_children_names p items acc)

theorem sorted_of_special {q : FPath} {n : Node} (e : FSEntry)
    (hsp : isSpecial q = true) (h : (inspectDir q e).1 = .ok n) :
    ∀ m ∈ treeNodes n, List.Pairwise childOrd m.children := by
  rw [inspectDir_special hsp] at h
  cases h
  intro m hm
  simp at hm
  subst hm
  simp

/-- C6: in every tree returned by `inspect_dir` over a wellformed filesystem,
the children of every node are sorted: directory children strictly precede
file children, and inside each group the paths are strictly ascending in the
lexicographic order. -/
theorem c6_children_sorted :
    ∀ e : FSEntry, ∀ q n, (inspectDir q e).1 = .ok n → FSWfb e = true →
      ∀ m ∈ treeNodes n, List.Pairwise childOrd m.children := by
  intro e
  induction e using fsInduct with
  | hm err =>
    intro q n h _ m hm'
    by_cases hsp : isSpecial q = true
    · exact sorted_of_special _ hsp h m hm'
    · have hsp' : isSpecial q = false := by simpa using hsp
      rw [inspectDir.eq_def] at h
      simp [hsp'] at h
  | hf l =>
    intro q n h _ m hm'
    by_cases hsp : isSpecial q = true
    · exact sorted_of_special _ hsp h m hm'
    · have hsp' : isSpecial q = false := by simpa using hsp
      rw [inspectDir.eq_def] at h
      simp [hsp'] at h
  | ho l =>
    intro q n h _ m hm'
    by_cases hsp : isSpecial q = true
    · exact sorted_of_special _ hsp h m hm'
    · have hsp' : isSpecial q = false := by simpa using hsp
      rw [inspectDir.eq_def] at h
      simp [hsp'] at h
  | hde l err =>
    intro q n h _ m hm'
    by_cases hsp : isSpecial q = true
    · exact sorted_of_special _ hsp h m hm'
    · have hsp' : isSpecial q = false := by simpa using hsp
      rw [inspectDir_nonspecial_dirErr hsp' l err] at h
      cases h
  | hd l items ih =>
    intro q n h hwf m hm'
    by_cases hsp : isSpecial q = true
    · exact sorted_of_special _ hsp h m hm'
    · have hsp' : isSpecial q = false := by simpa using hsp
      rw [inspectDir_nonspecial_dir hsp' l items] at h
      cases h
      rw [FSWfb_dir, Bool.and_eq_true] at hwf
      rcases mem_treeNodes_iff.mp hm' with rfl | ⟨c, hc, hmc⟩
      · simp only [Node.children_mk]
        have hsorted := sortChildren_sorted
          (processItems q (l % W64) items).children
        have hnodup0 := childrenNames_nodup q items hwf.1 (l % W64)
        have hnodup : (((sortChildren
            (processItems q (l % W64) items).children)).map Node.name).Nodup :=
          (((List.perm_insertionSort nodeLe
            (processItems q (l % W64) items).children).map Node.name).symm).nodup
            hnodup0
        have hne : List.Pairwise (fun a b : Node => a.name ≠ b.name)
            (sortChildren (processItems q (l % W64) items).children) :=
          List.pairwise_map.mp hnodup
        exact (hsorted.and hne).imp fun hab => nodeLe_ne_imp_childOrd hab.1 hab.2
      · simp only [Node.children_mk] at hc
        have hc' : c ∈ (processItems q (l % W64) items).children :=
          mem_sortChildren.mp hc
        rcases processItems_children_origin q items (l % W64) c hc'
            with ⟨nm, fl, hmem', rfl⟩ | ⟨nm, sub, hmem', hok⟩
        · have hm2 : m = Node.new fl (q ++ [nm]) false := by
            simpa [Node.new] using hmc
          subst hm2
          simp [Node.new]
        · exact ih nm sub hmem' (q ++ [nm]) c hok
            (FSWfItems_mem items hwf.2 nm sub hmem') m hmc

theorem c6_children_sorted_witness :
    List.Pairwise childOrd
      (Node.mk 6 ["r"]
        [.mk 3 ["r", "d"] [] true false, .mk 2 ["r", "f"] [] false false]
        true false).children :=
  c6_children_sorted (.dir 1 [.entry "f" (.file 2), .entry "d" (.dir 3 [])])
    ["r"]
    (.mk 6 ["r"]
      [.mk 3 ["r", "d"] [] true false, .mk 2 ["r", "f"] [] false false]
      true false)
    rfl rfl
    (.mk 6 ["r"]
      [.mk 3 ["r", "d"] [] true false, .mk 2 ["r", "f"] [] false false]
      true false)
    (self_mem_treeNodes _)

theorem prefixOf_spec (a b : FPath) : a.isPrefixOf b = true ↔ ∃ t, a ++ t = b := by
  rw [ List.isPrefixOf_iff_prefix]
  exact Iff.rfl

@[simp] theorem find_node_mk (s nm cs d m p) :
    find_node (.mk s nm cs d m) p
      = if nm = p then some (.mk s nm cs d m) else findChild cs p := rfl

@[simp] theorem findChild_nil (p : FPath) : findChild [] p = none := rfl

@[simp] theorem findChild_cons (c : Node) (cs : List Node) (p : FPath) :
    findChild (c :: cs) p
      = if c.name = p then some c
        else if c.name.isPrefixOf p then find_node c p
        else findChild cs p := rfl

@[simp] theorem find_node_mut_mk (s nm cs d m p) :
    find_node_mut (.mk s nm cs d m) p
      = if nm = p then some (.mk s nm cs d m) else findChildMut cs p := rfl

@[simp] theorem findChildMut_nil (p : FPath) : findChildMut [] p = none := rfl

@[simp] theorem findChildMut_cons (c : Node) (cs : List Node) (p : FPath) :
    findChildMut (c :: cs) p
      = if c.name = p then some c
        else if c.name.isPrefixOf p then find_node_mut c p
        else findChildMut cs p := rfl

theorem childLinkb_spec {par ch : FPath} (h : childLinkb par ch = true) :
    ∃ x, ch = par ++ [x] := by
  simp only [childLinkb, Bool.and_eq_true, beq_iff_eq] at h
  rcases (prefixOf_spec par ch).mp h.1 with ⟨t, ht⟩
  have hlt : t.length = 1 := by
    have := congrArg List.length ht
    simp at this
    omega
  rcases t with _ | ⟨x, _ | _⟩
  · simp at hlt
  · exact ⟨x, ht.symm⟩
  · simp at hlt

/-- Under the invariant, every subtree node's path extends its root's path. -/
theorem treeInv_desc_prefix {n : Node} (hinv : treeInvb n = true) :
    ∀ m ∈ treeNodes n, ∃ t, n.name ++ t = m.name := by
  induction n using nodeInduct with
  | h s nm cs d mk0 ih =>
    intro m hm
    simp at hm
    rcases hm with rfl | hm
    · exact ⟨[], by simp⟩
    · rcases mem_treeNodesList.mp hm with ⟨c, hc, hmc⟩
      rcases treeInvChildren_mem (treeInvb_mk.mp hinv).2 hc with ⟨hl, hic⟩
      rcases childLinkb_spec hl with ⟨x, hx⟩
      rcases ih c hc hic m hmc with ⟨t, ht⟩
      refine ⟨x :: t, ?_⟩
      rw [← ht, hx]
      simp

/-- Under the invariant, a subtree node bearing the root's own path is the
root. -/
theorem treeInv_name_eq_root {c m : Node} (hinv : treeInvb c = true)
    (hm : m ∈ treeNodes c) (hname : m.name = c.name) : m = c := by
  cases c with
  | mk s nm cs d mk0 =>
    simp at hm
    rcases hm with rfl | hm
    · rfl
    · have := treeInv_strict_desc_length hinv m hm
      rw [hname] at this
      simp at this

theorem distinctNames_cons {c : Node} {cs : List Node}
    (h : distinctNames (c :: cs) = true) :
    (∀ c' ∈ cs, c'.name ≠ c.name) ∧ distinctNames cs = true := by
  simp only [distinctNames, Bool.and_eq_true, Bool.not_eq_true',
    List.any_eq_false, beq_iff_eq] at h
  exact h

theorem treeInvChildren_cons {nm : FPath} {c₀ : Node} {rest : List Node}
    (h : treeInvChildren nm (c₀ :: rest) = true) :
    childLinkb nm c₀.name = true ∧ treeInvb c₀ = true
      ∧ treeInvChildren nm rest = true := by
  simp only [treeInvChildren, Bool.and_eq_true] at h
  tauto

theorem findChild_sound {p : FPath} {cs : List Node}
    (h : ∀ c ∈ cs, ∀ m, find_node c p = some m → m ∈ treeNodes c ∧ m.name = p) :
    ∀ m, findChild cs p = some m → (∃ c ∈ cs, m ∈ treeNodes c) ∧ m.name = p := by
  induction cs with
  | nil => intro m hm; simp at hm
  | cons c cs ih =>
    intro m hm
    rw [findChild_cons] at hm
    by_cases h1 : c.name = p
    · rw [if_pos h1] at hm
      cases hm
      exact ⟨⟨c, by simp, self_mem_treeNodes c⟩, h1⟩
    · rw [if_neg h1] at hm
      by_cases h2 : c.name.isPrefixOf p = true
      · rw [if_pos h2] at hm
        rcases h c (by simp) m hm with ⟨hmem, hname⟩
        exact ⟨⟨c, by simp, hmem⟩, hname⟩
      · rw [if_neg h2] at hm
        rcases ih (fun c' hc' => h c' (by simp [hc'])) m hm
          with ⟨⟨c', hc', hm'⟩, hname⟩
        exact ⟨⟨c', by simp [hc'], hm'⟩, hname⟩

/-- Whatever `find_node` returns is a node of the tree bearing the queried
path (no invariant needed). -/
theorem find_node_sound : ∀ (n : Node) (p : FPath) (m : Node),
    find_node n p = some m → m ∈ treeNodes n ∧ m.name = p := by
  intro n
  induction n using nodeInduct with
  | h s nm cs d mk0 ih =>
    intro p m hm
    rw [find_node_mk] at hm
    by_cases h1 : nm = p
    · rw [if_pos h1] at hm
      cases hm
      exact ⟨by simp, h1⟩
    · rw [if_neg h1] at hm
      rcases findChild_sound (fun c hc => ih c hc p) m hm
        with ⟨⟨c, hc, hm'⟩, hname⟩
      refine ⟨?_, hname⟩
      rw [treeNodes_mk]
      exact List.mem_cons.mpr (Or.inr (mem_treeNodesList.mpr ⟨c, hc, hm'⟩))

theorem findChild_complete {nm : FPath} {cs : List Node} {m c : Node}
    (hdn : distinctNames cs = true)
    (hch : treeInvChildren nm cs = true)
    (ihs : ∀ c' ∈ cs, treeInvb c' = true →
        ∀ m' ∈ treeNodes c', find_node c' m'.name = some m')
    (hc : c ∈ cs) (hmc : m ∈ treeNodes c) :
    findChild cs m.name = some m := by
  induction cs with
  | nil => simp at hc
  | cons c₀ rest ih =>
    rcases distinctNames_cons hdn with ⟨hd0, hdrest⟩
    rcases treeInvChildren_cons hch with ⟨hlk0, hinv0, hchrest⟩
    rcases List.mem_cons.mp hc with rfl | hcrest
    · by_cases h1 : c.name = m.name
      · have hm : m = c := treeInv_name_eq_root hinv0 hmc h1.symm
        rw [findChild_cons, if_pos h1]
        rw [hm]
      · have hpre : c.name.isPrefixOf m.name = true := by
          rcases treeInv_desc_prefix hinv0 m hmc with ⟨t, ht⟩
          exact (prefixOf_spec _ _).mpr ⟨t, ht⟩
        rw [findChild_cons, if_neg h1, if_pos hpre]
        exact ihs c (by simp) hinv0 m hmc
    · rcases childLinkb_spec hlk0 with ⟨x₀, hx₀⟩
      have hcc := treeInvChildren_mem hchrest hcrest
      rcases childLinkb_spec hcc.1 with ⟨x, hx⟩
      have hne : x₀ ≠ x := by
        intro hcontra
        apply hd0 c hcrest
        rw [hx, hx₀, hcontra]
      rcases treeInv_desc_prefix hcc.2 m hmc with ⟨t, ht⟩
      have hmname : m.name = nm ++ x :: t := by
        rw [← ht, hx]
        simp
      have hnopre : ¬(c₀.name.isPrefixOf m.name = true) := by
        intro hcontra
        rcases (prefixOf_spec _ _).mp hcontra with ⟨t', ht'⟩
        rw [hx₀, hmname] at ht'
        have hcast : x₀ :: t' = x :: t := by
          simpa using ht'
        exact hne (by injection hcast)
      have hneq : ¬(c₀.name = m.name) := by
        intro hcontra
        apply hnopre
        rw [hcontra]
        exact (prefixOf_spec _ _).mpr ⟨[], by simp⟩
      rw [findChild_cons, if_neg hneq, if_neg hnopre]
      exact ih hdrest hchrest (fun c' hc' => ihs c' (by simp [hc'])) hcrest

/-- Under the invariant, every node of the tree is found at its own path. -/
theorem find_node_complete : ∀ n : Node, treeInvb n = true →
    ∀ m ∈ treeNodes n, find_node n m.name = some m := by
  intro n
  induction n using nodeInduct with
  | h s nm cs d mk0 ih =>
    intro hinv m hm
    simp only [treeNodes_mk, List.mem_cons] at hm
    rcases hm with rfl | hm
    · simp
    · have hlen := treeInv_strict_desc_length hinv m hm
      have hne : ¬(nm = m.name) := by
        intro hcontra
        rw [← hcontra] at hlen
        exact lt_irrefl _ hlen
      rw [find_node_mk, if_neg hne]
      rcases mem_treeNodesList.mp hm with ⟨c, hc, hmc⟩
      exact findChild_complete (treeInvb_mk.mp hinv).1 (treeInvb_mk.mp hinv).2
        ih hc hmc

theorem findChildMut_eq {p : FPath} {cs : List Node}
    (h : ∀ c ∈ cs, find_node_mut c p = find_node c p) :
    findChildMut cs p = findChild cs p := by
  induction cs with
  | nil => rfl
  | cons c cs ih =>
    rw [findChildMut_cons, findChild_cons, h c (by simp),
      ih (fun c' hc' => h c' (by simp [hc']))]

theorem find_node_mut_eq : ∀ (n : Node) (p : FPath),
    find_node_mut n p = find_node n p := by
  intro n
  induction n using nodeInduct with
  | h s nm cs d mk0 ih =>
    intro p
    rw [find_node_mut_mk, find_node_mk, findChildMut_eq (fun c hc => ih c hc p)]

/-- C4: in a tree satisfying the path invariants, `find_node` (and the
identically-traversing `find_node_mut`) returns `some m` exactly when `m` is
a node of the tree whose path is the query; in particular the answer for a
path carried by some node is that unique node, and any other path yields
none. -/
theorem c4_find_node_correct (n : Node) (hinv : treeInvb n = true) :
    (∀ p, find_node_mut n p = find_node n p)
    ∧ ∀ p m, find_node n p = some m ↔ (m ∈ treeNodes n ∧ m.name = p) := by
  refine ⟨fun p => find_node_mut_eq n p,
    fun p m => ⟨fun h => find_node_sound n p m h, ?_⟩⟩
  rintro ⟨hmem, rfl⟩
  exact find_node_complete n hinv m hmem

theorem c4_find_node_correct_witness :
    find_node (.mk 1 ["r"] [.mk 2 ["r", "a"] [] false false] true false)
        ["r", "a"]
      = some (.mk 2 ["r", "a"] [] false false)
    ↔ ((Node.mk 2 ["r", "a"] [] false false)
          ∈ treeNodes (.mk 1 ["r"] [.mk 2 ["r", "a"] [] false false] true false)
        ∧ (Node.mk 2 ["r", "a"] [] false false).name = ["r", "a"]) :=
  (c4_find_node_correct
    (.mk 1 ["r"] [.mk 2 ["r", "a"] [] false false] true false)
    (by decide)).2 ["r", "a"] (.mk 2 ["r", "a"] [] false false)
